import Mathlib

/-! cppbuild: symbol-based link dependency resolution.

A shallow embedding of `cppbuild.cc`: the `std::string` helpers that derive
object and binary file names, the four global lookup tables, the symbol classifier
`PopulateSymbolsOrDie` and the work-queue traversal of `LinkDeps`.

Conventions of the embedding.

* A `std::string` is a `List Char`; `string::npos` is `none`.
* An `unordered_map<string, V>` is an association list read through
  `Map.get?`; every insertion of the source adds a key only when it is
  absent, so the first binding of a key is the only one.
* `exit(1)` is the result `none` of a classifier call; a `while` loop takes a
  fuel argument and returns `none` when the fuel runs out before the loop
  condition becomes false.
* The BFD library is external: an opened object file is the record of what
  the four BFD calls of `PopulateSymbolsOrDie` return on it, and the flag bits
  `BSF_GLOBAL`, `BSF_WEAK`, `BSF_GNU_UNIQUE` of `bfd.h` are parameters.
* The iteration order of `unordered_set` is unspecified: it is a parameter
  `iter` of the link loop.
-/

namespace CppBuild

/-- A `std::string`, as the sequence of its characters. -/
abbrev Str := List Char

/-! ## String helpers -/

/-- The test `h.compare(i, n.size(), n) == 0`: `n` occurs in `h` at offset `i`. -/
def matchAt (h n : Str) (i : Nat) : Bool :=
  (h.drop i).take n.length == n

/-- Scan of `string::find`: `i` is the offset of the suffix still to search. -/
def findFrom (n : Str) : Str → Nat → Option Nat
  | [], i => if matchAt [] n 0 then some i else none
  | c :: cs, i => if matchAt (c :: cs) n 0 then some i else findFrom n cs (i + 1)

/-- The call `h.find(n)`: the lowest offset at which `n` occurs, `none` for `npos`. -/
def find (h n : Str) : Option Nat :=
  findFrom n h 0

/-- Scan of `string::rfind`, downwards from offset `i`. -/
def rfindFrom (h n : Str) : Nat → Option Nat
  | 0 => if matchAt h n 0 then some 0 else none
  | i + 1 => if matchAt h n (i + 1) then some (i + 1) else rfindFrom h n i

/-- The call `h.rfind(n)`: the highest offset at which `n` occurs, `none` for `npos`. -/
def rfind (h n : Str) : Option Nat :=
  if n.length ≤ h.length then rfindFrom h n (h.length - n.length) else none

/-- The call `h.replace(i, len, r)`. -/
def replace (h : Str) (i len : Nat) (r : Str) : Str :=
  h.take i ++ r ++ h.drop (i + len)

/-- The source's `replace_last`. -/
def replace_last (haystack needle replacement : Str) : Str :=
  match rfind haystack needle with
  | none => haystack
  | some i => replace haystack i needle.length replacement

def GenerateExpectedObjectFileName (filename : Str) : Str :=
  replace_last filename ".cc".toList ".o".toList

def GenerateExpectedBinaryFileName (filename : Str) : Str :=
  replace_last filename ".o".toList "".toList

def kMainSymName : Str := "_main".toList

/-! ## Lookup tables -/

/-- An `unordered_map<string, V>`. -/
abbrev Map (V : Type) := List (Str × V)

/-- Lookup of a key (`find`, or `count` followed by `at`). -/
def Map.get? {V : Type} : Map V → Str → Option V
  | [], _ => none
  | (k', v) :: m, k => if k' = k then some v else Map.get? m k

/-- The call `m.emplace(k, v)`: inserts only when `k` is not yet a key. -/
def Map.emplace {V : Type} (m : Map V) (k : Str) (v : V) : Map V :=
  match m.get? k with
  | some _ => m
  | none => m ++ [(k, v)]

/-- The expression `m[k]` on a map of vectors: the vector stored under `k`, after
inserting an empty vector when `k` is not yet a key. -/
def Map.subscript (m : Map (List Str)) (k : Str) : Map (List Str) × List Str :=
  match m.get? k with
  | some v => (m, v)
  | none => (m ++ [(k, [])], [])

/-- The statement `m[k].emplace_back(x)`. -/
def Map.pushBack : Map (List Str) → Str → Str → Map (List Str)
  | [], k, x => [(k, [x])]
  | (k', v) :: m, k, x =>
    if k' = k then (k', v ++ [x]) :: m else (k', v) :: Map.pushBack m k x

/-- The list a map of vectors associates with a key, an absent key read as the
empty list. -/
def Map.getD (m : Map (List Str)) (k : Str) : List Str :=
  (m.get? k).getD []

/-- The four global tables. -/
structure Index where
  package_to_file : Map (List Str)
  package_to_main : Map (List Str)
  file_to_undefined_symbols : Map (List Str)
  exported_symbol_to_file : Map Str
  deriving DecidableEq

/-- The tables at program start. -/
def Index.empty : Index := ⟨[], [], [], []⟩

/-! ## Symbol classifier -/

/-- The section of a symbol, as far as `bfd_is_und_section` and
`bfd_is_com_section` tell sections apart. -/
inductive asection
  | und
  | com
  | other
  deriving DecidableEq, Repr

/-- The fields of a BFD `asymbol` that the classifier reads. -/
structure asymbol where
  name : Str
  flags : Nat
  sec : asection

/-- The symbol flag bits of `bfd.h` that the classifier tests. -/
structure SymbolFlags where
  BSF_GLOBAL : Nat
  BSF_WEAK : Nat
  BSF_GNU_UNIQUE : Nat

/-- The values of the flag bits in the `bfd.h` of GNU binutils. -/
def binutilsFlags : SymbolFlags := ⟨0x02, 0x80, 0x800000⟩

/-- An opened object file: what the BFD calls of `PopulateSymbolsOrDie` return. -/
structure bfd where
  /-- Result of `bfd_check_format_matches(abfd, bfd_object, _)`. -/
  check_format_matches : Bool
  /-- Result of `bfd_get_symtab_upper_bound`. -/
  symtab_upper_bound : Int
  /-- Result of `bfd_canonicalize_symtab`: `none` for a negative count, otherwise
  the `number_of_symbols` records written to the table. -/
  canonicalize_symtab : Option (List asymbol)

def bfd_is_und_section (s : asection) : Bool := s = asection.und

def bfd_is_com_section (s : asection) : Bool := s = asection.com

/-- The local `is_undefined` of the symbol loop. -/
def is_undefined (symbol : asymbol) : Bool :=
  bfd_is_und_section symbol.sec

/-- The local `is_exported` of the symbol loop. -/
def is_exported (k : SymbolFlags) (symbol : asymbol) : Bool :=
  (symbol.flags &&& (k.BSF_GLOBAL ||| k.BSF_WEAK ||| k.BSF_GNU_UNIQUE) != 0)
    || bfd_is_com_section symbol.sec

/-- What the symbol loop of `PopulateSymbolsOrDie` writes. -/
structure SymbolLoop where
  undef_syms_for_file : List Str
  exported_symbol_to_file : Map Str
  has_main : Bool

/-- One iteration of the symbol loop. -/
def symbolStep (k : SymbolFlags) (filepath : Str) (st : SymbolLoop) (symbol : asymbol) :
    SymbolLoop :=
  if is_undefined symbol then
    { st with undef_syms_for_file := st.undef_syms_for_file ++ [symbol.name] }
  else if is_exported k symbol then
    { st with
      exported_symbol_to_file := st.exported_symbol_to_file.emplace symbol.name filepath
      has_main := if (find symbol.name kMainSymName).isSome then true else st.has_main }
  else st

/-- The symbol loop, from the definer map `exported`. -/
def symbolLoop (k : SymbolFlags) (filepath : Str) (exported : Map Str)
    (symbol_table : List asymbol) : SymbolLoop :=
  symbol_table.foldl (symbolStep k filepath) ⟨[], exported, false⟩

/-- The source's `PopulateSymbolsOrDie`; `none` is `exit(1)`. -/
def PopulateSymbolsOrDie (k : SymbolFlags) (abfd : bfd) (package filepath : Str)
    (idx : Index) : Option Index :=
  if !abfd.check_format_matches then none
  else if abfd.symtab_upper_bound < 0 then none
  else if abfd.symtab_upper_bound = 0 then some idx
  else
    match abfd.canonicalize_symtab with
    | none => none
    | some symbol_table =>
      let r := symbolLoop k filepath idx.exported_symbol_to_file symbol_table
      let undefined := r.undef_syms_for_file.foldl (fun m sym => m.pushBack filepath sym)
        idx.file_to_undefined_symbols
      let files := idx.package_to_file.pushBack package filepath
      let mains :=
        if r.has_main then idx.package_to_main.pushBack package filepath
        else idx.package_to_main
      some ⟨files, mains, undefined, r.exported_symbol_to_file⟩

/-- An object file handed to the classifier: the opened file, its package and
its path. -/
structure ObjectFile where
  abfd : bfd
  package : Str
  filepath : Str

/-- The calls of `PopulateSymbolsOrDie` made while the packages load, in order. -/
def classifyAll (k : SymbolFlags) : Index → List ObjectFile → Option Index
  | idx, [] => some idx
  | idx, o :: os =>
    match PopulateSymbolsOrDie k o.abfd o.package o.filepath idx with
    | none => none
    | some idx' => classifyAll k idx' os

/-! ## Link dependencies -/

/-- The variables of the traversal in `LinkDeps`. -/
structure Traversal where
  file_to_undefined_symbols : Map (List Str)
  depfiles : List Str
  file_work_queue : List Str
  command_buffer_size : Nat
  deriving DecidableEq

/-- The call `depfiles.emplace(depfile)` on the `unordered_set`. -/
def setEmplace (s : List Str) (x : Str) : List Str :=
  if x ∈ s then s else s ++ [x]

/-- One iteration of `for (const auto& sym : syms)`. -/
def symStep (exported : Map Str) (st : Traversal) (sym : Str) : Traversal :=
  match exported.get? sym with
  | none => st
  | some depfile =>
    let r := st.file_to_undefined_symbols.subscript depfile
    { file_to_undefined_symbols := r.1
      depfiles := setEmplace st.depfiles depfile
      file_work_queue :=
        if !r.2.isEmpty then st.file_work_queue ++ [depfile] else st.file_work_queue
      command_buffer_size := st.command_buffer_size + depfile.length + 1 }

/-- One iteration of the `while` loop, on a queue with front `file` and the
other elements `rest`: `file` is the value that `front()` refers to when it is
called, before `pop()`. -/
def whileStep (exported : Map Str) (st : Traversal) (file : Str) (rest : List Str) :
    Traversal :=
  let r := st.file_to_undefined_symbols.subscript file
  r.2.foldl (symStep exported)
    { st with file_to_undefined_symbols := r.1, file_work_queue := rest }

/-- The loop `while (!file_work_queue.empty())`; `none` when the fuel runs out. -/
def whileLoop (exported : Map Str) : Nat → Traversal → Option Traversal
  | fuel, st =>
    match st.file_work_queue with
    | [] => some st
    | file :: rest =>
      match fuel with
      | 0 => none
      | fuel + 1 => whileLoop exported fuel (whileStep exported st file rest)

/-- The variables of the traversal when the `while` loop is entered for `mf`. -/
def traversalInit (undefined : Map (List Str)) (mf : Str) : Traversal :=
  ⟨undefined, [], [mf], mf.length⟩

/-- The command string assembled after the traversal; `deps` is `depfiles` in
iteration order. The call `command.reserve` changes the capacity of the string
only and has no counterpart here. -/
def linkCommand (binary mf : Str) (deps : List Str) : Str :=
  deps.foldl (fun command depfile => command ++ " ".toList ++ depfile)
    ("c++ -o ".toList ++ binary ++ " ".toList ++ mf)

/-- What one iteration of `for (const auto& mf : main_files)` leaves behind. -/
structure LinkStep where
  file_to_undefined_symbols : Map (List Str)
  depfiles : List Str
  /-- The commands passed to `RunOrDie`, in order. -/
  commands : List Str
  deriving DecidableEq

/-- The body of `for (const auto& mf : main_files)` up to and including the call
of `RunOrDie`; `iter` is the iteration order of the set. -/
def linkMain (iter : List Str → List Str) (exported : Map Str) (fuel : Nat)
    (undefined : Map (List Str)) (mf : Str) : Option LinkStep :=
  match whileLoop exported fuel (traversalInit undefined mf) with
  | none => none
  | some st =>
    let binary := GenerateExpectedBinaryFileName mf
    some ⟨st.file_to_undefined_symbols, st.depfiles, [linkCommand binary mf (iter st.depfiles)]⟩

/-- The outcome of `LinkDeps`. -/
structure LinkResult where
  index : Index
  /-- The commands passed to `RunOrDie`, in order. -/
  commands : List Str
  /-- Whether `RunOrDie` ended the process with `exit(1)`. -/
  exited : Bool
  deriving DecidableEq

/-- The loop `for (const auto& mf : main_files)`; `system command` tells whether
the command exits with status zero. -/
def linkLoop (system : Str → Bool) (iter : List Str → List Str) (exported : Map Str)
    (fuel : Nat) : Map (List Str) → List Str → Option (Map (List Str) × List Str × Bool)
  | undefined, [] => some (undefined, [], false)
  | undefined, mf :: rest =>
    match linkMain iter exported fuel undefined mf with
    | none => none
    | some step =>
      if step.commands.all system then
        match linkLoop system iter exported fuel step.file_to_undefined_symbols rest with
        | none => none
        | some (u, cs, e) => some (u, step.commands ++ cs, e)
      else some (step.file_to_undefined_symbols, step.commands, true)

/-- The source's `LinkDeps`; `none` when a traversal runs out of fuel. -/
def LinkDeps (system : Str → Bool) (iter : List Str → List Str) (fuel : Nat)
    (idx : Index) (target : Str) : Option LinkResult :=
  let r := idx.package_to_main.subscript target
  if r.2.isEmpty then some ⟨{ idx with package_to_main := r.1 }, [], false⟩
  else
    match linkLoop system iter idx.exported_symbol_to_file fuel
        idx.file_to_undefined_symbols r.2 with
    | none => none
    | some (u, cs, e) =>
      some ⟨{ idx with package_to_main := r.1, file_to_undefined_symbols := u }, cs, e⟩

/-! ## Vocabulary of the specification -/

/-- The relation of the traversal: `f` has an undefined symbol whose entry in
the definer map is `g`. -/
def DependsOn (undefined : Map (List Str)) (exported : Map Str) (f g : Str) : Prop :=
  ∃ sym ∈ undefined.getD f, exported.get? sym = some g

/-- The symbol records the classifier reads from an object file: none when
the upper bound of the symbol table is zero. -/
def symbolsRead (abfd : bfd) : List asymbol :=
  if abfd.symtab_upper_bound = 0 then [] else abfd.canonicalize_symtab.getD []

/-- The classifier treats the record as exported: it reaches the `emplace` on
the definer map. -/
def treatedAsExported (k : SymbolFlags) (sym : asymbol) : Bool :=
  !is_undefined sym && is_exported k sym

/-- The object file exports the name `S`. -/
def exportsSymbol (k : SymbolFlags) (abfd : bfd) (S : Str) : Bool :=
  (symbolsRead abfd).any fun sym => treatedAsExported k sym && sym.name == S

/-- Some exported name of the symbol table contains the marker `_main` as a
contiguous substring. -/
def HasEntryPoint (k : SymbolFlags) (symbol_table : List asymbol) : Prop :=
  ∃ sym ∈ symbol_table, treatedAsExported k sym = true ∧
    ∃ before after : Str, sym.name = before ++ kMainSymName ++ after

/-- The table `m2` is `m1` with, possibly, empty vectors under keys that `m1`
does not have. -/
def Map.Extends (m1 m2 : Map (List Str)) : Prop :=
  ∀ k, m2.get? k = m1.get? k ∨ (m1.get? k = none ∧ m2.get? k = some [])

/-- The invariant of the `while` loop of `LinkDeps` started from `mf` on the
undefined-symbol table `U`: the table still reads as `U`, every file of
`depfiles` is reachable from `mf`, every queued file is `mf` or reachable from
it, and a file that is `mf` or in `depfiles` is still queued or has all the
files it depends on in `depfiles`. -/
structure TraversalInv (U : Map (List Str)) (exported : Map Str) (mf : Str)
    (st : Traversal) : Prop where
  table : ∀ k, Map.getD st.file_to_undefined_symbols k = Map.getD U k
  sound : ∀ g ∈ st.depfiles, Relation.TransGen (DependsOn U exported) mf g
  queued : ∀ q ∈ st.file_work_queue, Relation.ReflTransGen (DependsOn U exported) mf q
  closed : ∀ f, f = mf ∨ f ∈ st.depfiles →
    f ∈ st.file_work_queue ∨ ∀ g, DependsOn U exported f g → g ∈ st.depfiles
  nodup : st.depfiles.Nodup

/-- The file `g` is a child of `f` in the traversal from `mf`: `f` is `mf` or
reachable from it, and `f` depends on `g`. -/
def ChildOf (U : Map (List Str)) (exported : Map Str) (mf : Str) (g f : Str) : Prop :=
  Relation.ReflTransGen (DependsOn U exported) mf f ∧ DependsOn U exported f g

/-! ## Example inputs -/

/-- Scenario A: `main.o` exports `_main` and refers to `bar_init`. -/
def mainObject : ObjectFile :=
  ⟨⟨true, 24, some [⟨"_main".toList, 0x02, asection.other⟩,
      ⟨"bar_init".toList, 0, asection.und⟩]⟩, "foo".toList, "/src/foo/main.o".toList⟩

/-- Scenario A: `bar.o` exports `bar_init` and refers to nothing. -/
def barObject : ObjectFile :=
  ⟨⟨true, 16, some [⟨"bar_init".toList, 0x02, asection.other⟩]⟩,
    "bar".toList, "/src/bar/bar.o".toList⟩

/-- The tables after `main.o` of scenario A is classified, the first file of
the build. -/
def afterMainObject : Index :=
  { package_to_file := [("foo".toList, ["/src/foo/main.o".toList])]
    package_to_main := [("foo".toList, ["/src/foo/main.o".toList])]
    file_to_undefined_symbols := [("/src/foo/main.o".toList, ["bar_init".toList])]
    exported_symbol_to_file := [("_main".toList, "/src/foo/main.o".toList)] }

/-- The tables after the two object files of scenario A are classified. -/
def scenarioA : Index :=
  { package_to_file := [("foo".toList, ["/src/foo/main.o".toList]),
      ("bar".toList, ["/src/bar/bar.o".toList])]
    package_to_main := [("foo".toList, ["/src/foo/main.o".toList])]
    file_to_undefined_symbols := [("/src/foo/main.o".toList, ["bar_init".toList])]
    exported_symbol_to_file := [("_main".toList, "/src/foo/main.o".toList),
      ("bar_init".toList, "/src/bar/bar.o".toList)] }

/-- The variables of the traversal of scenario A from `main.o`, when the
`while` loop is left. -/
def scenarioATraversal : Traversal :=
  { file_to_undefined_symbols := [("/src/foo/main.o".toList, ["bar_init".toList]),
      ("/src/bar/bar.o".toList, [])]
    depfiles := ["/src/bar/bar.o".toList]
    file_work_queue := []
    command_buffer_size := 30 }

/-- The outcome of `LinkDeps` on scenario A for the package `foo`, when the link
command succeeds. -/
def scenarioALinked : LinkResult :=
  { index :=
      { scenarioA with
        file_to_undefined_symbols := [("/src/foo/main.o".toList, ["bar_init".toList]),
          ("/src/bar/bar.o".toList, [])] }
    commands := ["c++ -o /src/foo/main /src/foo/main.o /src/bar/bar.o".toList]
    exited := false }

/-- Scenario C: `a.o` exports `x` and `_main` and refers to `y`. -/
def aObject : ObjectFile :=
  ⟨⟨true, 32, some [⟨"_main".toList, 0x02, asection.other⟩,
      ⟨"x".toList, 0x02, asection.other⟩, ⟨"y".toList, 0, asection.und⟩]⟩,
    "app".toList, "a.o".toList⟩

/-- Scenario C: `b.o` exports `y` and refers to `x`. -/
def bObject : ObjectFile :=
  ⟨⟨true, 24, some [⟨"y".toList, 0x02, asection.other⟩, ⟨"x".toList, 0, asection.und⟩]⟩,
    "app".toList, "b.o".toList⟩

/-- The tables after the two object files of scenario C are classified. -/
def scenarioC : Index :=
  { package_to_file := [("app".toList, ["a.o".toList, "b.o".toList])]
    package_to_main := [("app".toList, ["a.o".toList])]
    file_to_undefined_symbols := [("a.o".toList, ["y".toList]), ("b.o".toList, ["x".toList])]
    exported_symbol_to_file := [("_main".toList, "a.o".toList), ("x".toList, "a.o".toList),
      ("y".toList, "b.o".toList)] }

/-- A diamond: `top.o` refers to `left.o` and `right.o`, which both refer to
`shared.o`; `shared.o` refers to a symbol that no file defines. -/
def diamond : Index :=
  { package_to_file := [("app".toList,
      ["top.o".toList, "left.o".toList, "right.o".toList, "shared.o".toList])]
    package_to_main := [("app".toList, ["top.o".toList])]
    file_to_undefined_symbols := [("top.o".toList, ["l".toList, "r".toList]),
      ("left.o".toList, ["s".toList]), ("right.o".toList, ["s".toList]),
      ("shared.o".toList, ["puts".toList])]
    exported_symbol_to_file := [("_main".toList, "top.o".toList),
      ("l".toList, "left.o".toList), ("r".toList, "right.o".toList),
      ("s".toList, "shared.o".toList)] }

/-- The height of a file in the diamond. -/
def diamondRank (f : Str) : Nat :=
  if f = "top.o".toList then 2
  else if f = "left.o".toList then 1
  else if f = "right.o".toList then 1
  else 0

/-- An object file whose symbol table is empty. -/
def emptyObject : ObjectFile :=
  ⟨⟨true, 0, some []⟩, "foo".toList, "/src/foo/empty.o".toList⟩

/-- A symbol table in which the name `x` is carried by an undefined record and
by a defined global record. -/
def clashingTable : List asymbol :=
  [⟨"x".toList, 0, asection.und⟩, ⟨"x".toList, 0x02, asection.other⟩]

/-! ## File names -/

theorem matchAt_append (a n : Str) : matchAt (a ++ n) n a.length = true := by
  simp [matchAt]

theorem rfind_append (a n : Str) : rfind (a ++ n) n = some a.length := by
  have hm := matchAt_append a n
  unfold rfind
  rw [if_pos (by simp)]
  have hlen : (a ++ n).length - n.length = a.length := by simp
  rw [hlen]
  cases h : a.length with
  | zero => rw [h] at hm; simp [rfindFrom, hm]
  | succ i => rw [h] at hm; simp [rfindFrom, hm]

theorem replace_last_append (a n r : Str) : replace_last (a ++ n) n r = a ++ r := by
  simp [replace_last, rfind_append, replace]

/-- C6: for every string `s`, the object name of `s + ".cc"` is `s + ".o"`, the
binary name of `s + ".o"` is `s`, and so the binary name of the object compiled
from `s + ".cc"` is `s`; only the trailing extension is touched, whatever `s`
contains. -/
theorem file_names_replace_trailing_extension (s : Str) :
    GenerateExpectedObjectFileName (s ++ ".cc".toList) = s ++ ".o".toList ∧
    GenerateExpectedBinaryFileName (s ++ ".o".toList) = s ∧
    GenerateExpectedBinaryFileName (GenerateExpectedObjectFileName (s ++ ".cc".toList)) = s := by
  simp only [GenerateExpectedObjectFileName, GenerateExpectedBinaryFileName,
    replace_last_append]
  simp

/-! ## Lookup tables: basic facts -/

theorem Map.get?_append {V : Type} (m m' : Map V) (k : Str) :
    Map.get? (m ++ m') k = (Map.get? m k).orElse fun _ => Map.get? m' k := by
  induction m with
  | nil => simp [Map.get?]
  | cons p m ih =>
    obtain ⟨k', v⟩ := p
    by_cases hk : k' = k
    · simp [Map.get?, hk]
    · simp [Map.get?, hk, ih]

theorem Map.get?_emplace {V : Type} (m : Map V) (k : Str) (v : V) (k' : Str) :
    Map.get? (m.emplace k v) k' =
      (Map.get? m k').orElse fun _ => if k = k' then some v else none := by
  unfold Map.emplace
  cases h : Map.get? m k with
  | some x =>
    by_cases hk : k = k'
    · subst hk; simp [h]
    · cases h' : Map.get? m k' <;> simp [hk]
  | none =>
    simp only [Map.get?_append]
    cases h' : Map.get? m k' <;> simp [Map.get?]

theorem Map.getD_pushBack_same (m : Map (List Str)) (k x : Str) :
    Map.getD (m.pushBack k x) k = Map.getD m k ++ [x] := by
  induction m with
  | nil => simp [Map.pushBack, Map.getD, Map.get?]
  | cons p m ih =>
    obtain ⟨k', v⟩ := p
    by_cases hk : k' = k
    · simp [Map.pushBack, Map.getD, Map.get?, hk]
    · simp only [Map.getD] at ih
      simp [Map.pushBack, Map.getD, Map.get?, hk, ih]

theorem Map.get?_pushBack_other (m : Map (List Str)) (k x k' : Str) (h : k' ≠ k) :
    Map.get? (m.pushBack k x) k' = Map.get? m k' := by
  induction m with
  | nil => simp [Map.pushBack, Map.get?, Ne.symm h]
  | cons p m ih =>
    obtain ⟨k'', v⟩ := p
    by_cases hk : k'' = k
    · subst hk
      simp [Map.pushBack, Map.get?, Ne.symm h]
    · by_cases hk' : k'' = k'
      · subst hk'
        simp [Map.pushBack, Map.get?, hk]
      · simp [Map.pushBack, Map.get?, hk, hk', ih]

/-! ## The symbol loop -/

theorem matchAt_zero_iff (h n : Str) : matchAt h n 0 = true ↔ n <+: h := by
  simp only [matchAt, List.drop_zero, beq_iff_eq]
  rw [List.prefix_iff_eq_take]
  exact eq_comm

theorem findFrom_isSome (n h : Str) (i : Nat) :
    (findFrom n h i).isSome = true ↔ ∃ before after : Str, h = before ++ n ++ after := by
  induction h generalizing i with
  | nil =>
    unfold findFrom
    by_cases hm : matchAt [] n 0 = true
    · simp only [hm, if_true, Option.isSome_some, true_iff]
      obtain ⟨t, ht⟩ := (matchAt_zero_iff [] n).1 hm
      exact ⟨[], t, by simpa using ht.symm⟩
    · simp only [hm, Option.isSome_none]
      constructor
      · intro hf; cases hf
      · rintro ⟨a, b, hab⟩
        exfalso
        apply hm
        rw [matchAt_zero_iff]
        have h1 : a = [] := by
          cases a with
          | nil => rfl
          | cons x xs => simp at hab
        subst h1
        exact ⟨b, by simpa using hab.symm⟩
  | cons c cs ih =>
    unfold findFrom
    by_cases hm : matchAt (c :: cs) n 0 = true
    · simp only [hm, if_true, Option.isSome_some, true_iff]
      obtain ⟨t, ht⟩ := (matchAt_zero_iff _ n).1 hm
      exact ⟨[], t, by simpa using ht.symm⟩
    · simp only [hm, Bool.false_eq_true, if_false]
      rw [ih (i + 1)]
      constructor
      · rintro ⟨a, b, hab⟩
        exact ⟨c :: a, b, by simp [hab]⟩
      · rintro ⟨a, b, hab⟩
        cases a with
        | nil =>
          exfalso
          apply hm
          rw [matchAt_zero_iff]
          exact ⟨b, by simpa using hab.symm⟩
        | cons x xs =>
          simp only [List.cons_append, List.cons.injEq] at hab
          exact ⟨xs, b, hab.2⟩

/-- The test `name.find(kMainSymName) != npos` holds exactly when the marker
occurs in the name as a contiguous substring. -/
theorem find_isSome (h n : Str) :
    (find h n).isSome = true ↔ ∃ before after : Str, h = before ++ n ++ after :=
  findFrom_isSome n h 0

theorem foldl_symbolStep_undef (k : SymbolFlags) (fp : Str) (syms : List asymbol)
    (st : SymbolLoop) :
    (syms.foldl (symbolStep k fp) st).undef_syms_for_file =
      st.undef_syms_for_file ++ (syms.filter is_undefined).map asymbol.name := by
  induction syms generalizing st with
  | nil => simp
  | cons s syms ih =>
    simp only [List.foldl_cons, ih]
    by_cases hu : is_undefined s = true
    · simp [symbolStep, hu, List.filter_cons]
    · by_cases he : is_exported k s = true
      · simp [symbolStep, hu, he, List.filter_cons]
      · simp [symbolStep, hu, he, List.filter_cons]

theorem foldl_symbolStep_has_main (k : SymbolFlags) (fp : Str) (syms : List asymbol)
    (st : SymbolLoop) :
    (syms.foldl (symbolStep k fp) st).has_main = true ↔
      st.has_main = true ∨ HasEntryPoint k syms := by
  induction syms generalizing st with
  | nil => simp [HasEntryPoint]
  | cons s syms ih =>
    simp only [List.foldl_cons, ih]
    have hcons : HasEntryPoint k (s :: syms) ↔
        (treatedAsExported k s = true ∧
          ∃ before after : Str, s.name = before ++ kMainSymName ++ after) ∨
        HasEntryPoint k syms := by
      simp [HasEntryPoint]
    rw [hcons, ← find_isSome]
    by_cases hu : is_undefined s = true
    · simp [symbolStep, hu, treatedAsExported]
    · by_cases he : is_exported k s = true
      · by_cases hf : (find s.name kMainSymName).isSome = true
        · simp [symbolStep, hu, he, hf, treatedAsExported]
        · simp [symbolStep, hu, he, hf, treatedAsExported]
      · simp [symbolStep, hu, he, treatedAsExported]

theorem foldl_symbolStep_get? (k : SymbolFlags) (fp : Str) (syms : List asymbol)
    (st : SymbolLoop) (S : Str) :
    Map.get? (syms.foldl (symbolStep k fp) st).exported_symbol_to_file S =
      (Map.get? st.exported_symbol_to_file S).orElse fun _ =>
        if syms.any (fun sym => treatedAsExported k sym && sym.name == S) then some fp
        else none := by
  induction syms generalizing st with
  | nil => cases h : Map.get? st.exported_symbol_to_file S <;> simp [h]
  | cons s syms ih =>
    simp only [List.foldl_cons, ih]
    by_cases hu : is_undefined s = true
    · simp [symbolStep, hu, treatedAsExported]
    · by_cases he : is_exported k s = true
      · simp only [symbolStep, hu, he, if_true, Bool.false_eq_true, if_false,
          Map.get?_emplace]
        cases h : Map.get? st.exported_symbol_to_file S with
        | some x => simp
        | none =>
          by_cases hn : s.name = S
          · simp [hn, treatedAsExported, hu, he]
          · simp [hn, treatedAsExported, hu, he]
      · simp [symbolStep, hu, he, treatedAsExported]

/-! ## The classifier -/

theorem PopulateSymbolsOrDie_eq_some {k : SymbolFlags} {abfd : bfd} {package filepath : Str}
    {idx idx' : Index} (h : PopulateSymbolsOrDie k abfd package filepath idx = some idx') :
    (abfd.symtab_upper_bound = 0 ∧ idx' = idx) ∨
    (abfd.symtab_upper_bound ≠ 0 ∧ ∃ syms, abfd.canonicalize_symtab = some syms ∧
      symbolsRead abfd = syms ∧
      idx' = ⟨idx.package_to_file.pushBack package filepath,
        if (symbolLoop k filepath idx.exported_symbol_to_file syms).has_main then
          idx.package_to_main.pushBack package filepath
        else idx.package_to_main,
        (symbolLoop k filepath idx.exported_symbol_to_file syms).undef_syms_for_file.foldl
          (fun m sym => m.pushBack filepath sym) idx.file_to_undefined_symbols,
        (symbolLoop k filepath idx.exported_symbol_to_file syms).exported_symbol_to_file⟩) := by
  unfold PopulateSymbolsOrDie at h
  by_cases h1 : abfd.check_format_matches = true
  · by_cases h2 : abfd.symtab_upper_bound < 0
    · simp [h1, h2] at h
    · by_cases h3 : abfd.symtab_upper_bound = 0
      · left
        simp [h1, h3] at h
        exact ⟨h3, h.symm⟩
      · right
        refine ⟨h3, ?_⟩
        cases hc : abfd.canonicalize_symtab with
        | none => simp [h1, h2, h3, hc] at h
        | some syms =>
          simp only [h1, h2, h3, hc, Bool.not_true, Bool.false_eq_true, if_false,
            Option.some.injEq] at h
          exact ⟨syms, rfl, by simp [symbolsRead, h3, hc], h.symm⟩
  · simp [h1] at h

theorem symbolLoop_has_main (k : SymbolFlags) (fp : Str) (exported : Map Str)
    (syms : List asymbol) :
    (symbolLoop k fp exported syms).has_main = true ↔ HasEntryPoint k syms := by
  simp [symbolLoop, foldl_symbolStep_has_main]

theorem symbolLoop_get? (k : SymbolFlags) (fp : Str) (exported : Map Str)
    (syms : List asymbol) (S : Str) :
    Map.get? (symbolLoop k fp exported syms).exported_symbol_to_file S =
      (Map.get? exported S).orElse fun _ =>
        if syms.any (fun sym => treatedAsExported k sym && sym.name == S) then some fp
        else none := by
  simp [symbolLoop, foldl_symbolStep_get?]

theorem PopulateSymbolsOrDie_get? {k : SymbolFlags} {abfd : bfd} {package filepath : Str}
    {idx idx' : Index} (h : PopulateSymbolsOrDie k abfd package filepath idx = some idx')
    (S : Str) :
    Map.get? idx'.exported_symbol_to_file S =
      (Map.get? idx.exported_symbol_to_file S).orElse fun _ =>
        if exportsSymbol k abfd S then some filepath else none := by
  rcases PopulateSymbolsOrDie_eq_some h with ⟨h0, rfl⟩ | ⟨_, syms, _, hread, rfl⟩
  · cases hg : Map.get? idx'.exported_symbol_to_file S <;>
      simp [exportsSymbol, symbolsRead, h0]
  · simp only [symbolLoop_get?, exportsSymbol, hread]

theorem classifyAll_get? (k : SymbolFlags) (files : List ObjectFile) (idx idx' : Index)
    (h : classifyAll k idx files = some idx') (S : Str) :
    Map.get? idx'.exported_symbol_to_file S =
      (Map.get? idx.exported_symbol_to_file S).orElse fun _ =>
        (files.find? fun o => exportsSymbol k o.abfd S).map ObjectFile.filepath := by
  induction files generalizing idx with
  | nil =>
    simp only [classifyAll, Option.some.injEq] at h
    subst h
    cases hg : Map.get? idx.exported_symbol_to_file S <;> simp
  | cons o os ih =>
    unfold classifyAll at h
    cases hp : PopulateSymbolsOrDie k o.abfd o.package o.filepath idx with
    | none => simp [hp] at h
    | some idx1 =>
      simp only [hp] at h
      rw [ih idx1 h, PopulateSymbolsOrDie_get? hp S]
      cases hg : Map.get? idx.exported_symbol_to_file S with
      | some f => simp
      | none =>
        by_cases he : exportsSymbol k o.abfd S = true
        · simp [he, List.find?_cons]
        · simp [he, List.find?_cons]

/-- C3: when a sequence of object files is classified without the build
aborting, a symbol name `S` that has no definer before is mapped to the path
of the first file of the sequence that exports `S` (to nothing when no file
does), and a name that has a definer keeps it whatever the files classified
afterwards export. -/
theorem first_definer_wins (k : SymbolFlags) (files : List ObjectFile) (idx idx' : Index)
    (S : Str) (h : classifyAll k idx files = some idx') :
    (Map.get? idx.exported_symbol_to_file S = none →
      Map.get? idx'.exported_symbol_to_file S =
        (files.find? fun o => exportsSymbol k o.abfd S).map ObjectFile.filepath) ∧
    (∀ f, Map.get? idx.exported_symbol_to_file S = some f →
      Map.get? idx'.exported_symbol_to_file S = some f) := by
  have hg := classifyAll_get? k files idx idx' h S
  constructor
  · intro h0
    rw [hg, h0]
    simp
  · intro f hf
    rw [hg, hf]
    simp

/-- The second of two files that both export `x` is classified after the
first: the definer of `x` is the first file. -/
theorem first_definer_wins_witness :
    (Map.get? Index.empty.exported_symbol_to_file "x".toList = none →
      Map.get? scenarioC.exported_symbol_to_file "x".toList =
        ([aObject, bObject].find? fun o =>
          exportsSymbol binutilsFlags o.abfd "x".toList).map ObjectFile.filepath) ∧
    (∀ f, Map.get? Index.empty.exported_symbol_to_file "x".toList = some f →
      Map.get? scenarioC.exported_symbol_to_file "x".toList = some f) :=
  first_definer_wins binutilsFlags [aObject, bObject] Index.empty scenarioC "x".toList
    (by decide)

/-- C4, the statement as written fails: an object file whose symbol table is
empty is classified without aborting and is not added to the membership list
of its package. -/
theorem empty_symbol_table_not_a_member :
    (PopulateSymbolsOrDie binutilsFlags emptyObject.abfd emptyObject.package
      emptyObject.filepath Index.empty).map
        (fun idx => Map.getD idx.package_to_file emptyObject.package) = some [] := by
  decide

/-- C4, amended: when classification does not abort, a file whose symbol-table
upper bound is zero leaves the four tables as they were; any other file is
appended exactly once to the membership list of its package, no other
package's list changes, and it is appended to the entry-point list of its
package exactly when it has an entry point. -/
theorem PopulateSymbolsOrDie_membership (k : SymbolFlags) (abfd : bfd)
    (package filepath : Str) (idx idx' : Index)
    (h : PopulateSymbolsOrDie k abfd package filepath idx = some idx') :
    (abfd.symtab_upper_bound = 0 → idx' = idx) ∧
    (abfd.symtab_upper_bound ≠ 0 →
      Map.getD idx'.package_to_file package =
        Map.getD idx.package_to_file package ++ [filepath] ∧
      (∀ p, p ≠ package → Map.get? idx'.package_to_file p = Map.get? idx.package_to_file p) ∧
      (HasEntryPoint k (symbolsRead abfd) →
        Map.getD idx'.package_to_main package =
          Map.getD idx.package_to_main package ++ [filepath]) ∧
      (¬ HasEntryPoint k (symbolsRead abfd) →
        idx'.package_to_main = idx.package_to_main)) := by
  rcases PopulateSymbolsOrDie_eq_some h with ⟨h0, rfl⟩ | ⟨hne, syms, _, hread, rfl⟩
  · exact ⟨fun _ => rfl, fun hne => absurd h0 hne⟩
  · refine ⟨fun h0 => absurd h0 hne, fun _ => ⟨?_, ?_, ?_, ?_⟩⟩
    · exact Map.getD_pushBack_same _ _ _
    · intro p hp
      exact Map.get?_pushBack_other _ _ _ _ hp
    · intro hep
      rw [hread] at hep
      have hm := (symbolLoop_has_main k filepath idx.exported_symbol_to_file syms).2 hep
      simp only [hm, if_true]
      exact Map.getD_pushBack_same _ _ _
    · intro hep
      rw [hread] at hep
      have hm : (symbolLoop k filepath idx.exported_symbol_to_file syms).has_main = false := by
        cases hb : (symbolLoop k filepath idx.exported_symbol_to_file syms).has_main with
        | false => rfl
        | true => exact absurd ((symbolLoop_has_main _ _ _ _).1 hb) hep
      simp [hm]

/-- The object file `main.o` of scenario A, classified first. -/
theorem PopulateSymbolsOrDie_membership_witness :
    (mainObject.abfd.symtab_upper_bound = 0 → afterMainObject = Index.empty) ∧
    (mainObject.abfd.symtab_upper_bound ≠ 0 →
      Map.getD afterMainObject.package_to_file mainObject.package =
        Map.getD Index.empty.package_to_file mainObject.package ++ [mainObject.filepath] ∧
      (∀ p, p ≠ mainObject.package →
        Map.get? afterMainObject.package_to_file p = Map.get? Index.empty.package_to_file p) ∧
      (HasEntryPoint binutilsFlags (symbolsRead mainObject.abfd) →
        Map.getD afterMainObject.package_to_main mainObject.package =
          Map.getD Index.empty.package_to_main mainObject.package ++ [mainObject.filepath]) ∧
      (¬ HasEntryPoint binutilsFlags (symbolsRead mainObject.abfd) →
        afterMainObject.package_to_main = Index.empty.package_to_main)) :=
  PopulateSymbolsOrDie_membership binutilsFlags mainObject.abfd mainObject.package
    mainObject.filepath Index.empty afterMainObject (by decide)

theorem symbolLoop_undef (k : SymbolFlags) (fp : Str) (exported : Map Str)
    (syms : List asymbol) :
    (symbolLoop k fp exported syms).undef_syms_for_file =
      (syms.filter is_undefined).map asymbol.name := by
  simp [symbolLoop, foldl_symbolStep_undef]

/-- C7, the statement as written fails: on a symbol table that carries the
name `x` on an undefined record and on a defined global record, `x` is
recorded as undefined and is inserted in the definer map for the file. -/
theorem exported_and_undefined_overlap :
    "x".toList ∈ (symbolLoop binutilsFlags "a.o".toList [] clashingTable).undef_syms_for_file ∧
    Map.get? (symbolLoop binutilsFlags "a.o".toList [] clashingTable).exported_symbol_to_file
      "x".toList = some "a.o".toList := by
  decide

/-- C7, amended: on a symbol table in which no name is carried both by a record
of the undefined section and by a record of another section, no name recorded
in the undefined-symbol list of the file is inserted in or offered to the map
of definers for that file: run from the empty map, the symbol loop leaves every
undefined name without a definer. -/
theorem exported_undefined_disjoint (k : SymbolFlags) (filepath : Str)
    (symbol_table : List asymbol)
    (hnames : ∀ a ∈ symbol_table, ∀ b ∈ symbol_table,
      a.name = b.name → is_undefined a = is_undefined b)
    (S : Str) (hS : S ∈ (symbolLoop k filepath [] symbol_table).undef_syms_for_file) :
    Map.get? (symbolLoop k filepath [] symbol_table).exported_symbol_to_file S = none := by
  rw [symbolLoop_undef] at hS
  obtain ⟨a, ha, haS⟩ := List.mem_map.1 hS
  obtain ⟨ha_mem, ha_und⟩ := List.mem_filter.1 ha
  rw [symbolLoop_get?]
  have hnone : (symbol_table.any fun sym => treatedAsExported k sym && sym.name == S) = false := by
    rw [Bool.eq_false_iff]
    intro hany
    obtain ⟨b, hb_mem, hb⟩ := List.any_eq_true.1 hany
    simp only [treatedAsExported, Bool.and_eq_true, Bool.not_eq_true', beq_iff_eq] at hb
    have := hnames a ha_mem b hb_mem (haS.trans hb.2.symm)
    rw [ha_und, hb.1.1] at this
    cases this
  simp [hnone, Map.get?]

/-- The symbol table of `a.o` in scenario C: `y` is recorded as undefined and
has no definer in the map that the loop builds for `a.o`. -/
theorem exported_undefined_disjoint_witness :
    "y".toList ∈ (symbolLoop binutilsFlags "a.o".toList []
        (symbolsRead aObject.abfd)).undef_syms_for_file ∧
    Map.get? (symbolLoop binutilsFlags "a.o".toList []
        (symbolsRead aObject.abfd)).exported_symbol_to_file "y".toList = none :=
  ⟨by decide, exported_undefined_disjoint binutilsFlags "a.o".toList
    (symbolsRead aObject.abfd) (by decide) "y".toList (by decide)⟩

/-- C8: an object file with a non-empty symbol table that BFD can read passes
the classifier without aborting, and it is appended to the entry-point list of
its package when some exported name of its symbol table contains the marker
`_main` as a substring, while the entry-point table stays as it was when none
does; in particular when the marker occurs in names of undefined symbols
only. -/
theorem entry_point_iff_exported_marker (k : SymbolFlags) (abfd : bfd)
    (package filepath : Str) (idx : Index) (symbol_table : List asymbol)
    (hformat : abfd.check_format_matches = true) (hbound : 0 < abfd.symtab_upper_bound)
    (htable : abfd.canonicalize_symtab = some symbol_table) :
    ∃ idx', PopulateSymbolsOrDie k abfd package filepath idx = some idx' ∧
      (HasEntryPoint k symbol_table →
        Map.getD idx'.package_to_main package =
          Map.getD idx.package_to_main package ++ [filepath]) ∧
      (¬ HasEntryPoint k symbol_table → idx'.package_to_main = idx.package_to_main) ∧
      ((∀ sym ∈ symbol_table,
          (∃ before after : Str, sym.name = before ++ kMainSymName ++ after) →
            is_undefined sym = true) →
        idx'.package_to_main = idx.package_to_main) := by
  have hnot : ¬ abfd.symtab_upper_bound < 0 := not_lt.2 (le_of_lt hbound)
  have hne : abfd.symtab_upper_bound ≠ 0 := ne_of_gt hbound
  have hfalse : ¬ HasEntryPoint k symbol_table →
      (symbolLoop k filepath idx.exported_symbol_to_file symbol_table).has_main = false := by
    intro hep
    cases hb : (symbolLoop k filepath idx.exported_symbol_to_file symbol_table).has_main with
    | false => rfl
    | true => exact absurd ((symbolLoop_has_main _ _ _ _).1 hb) hep
  have hsome : ∃ idx', PopulateSymbolsOrDie k abfd package filepath idx = some idx' := by
    simp [PopulateSymbolsOrDie, hformat, hnot, hne, htable]
  obtain ⟨idx', hpop⟩ := hsome
  refine ⟨idx', hpop, ?_⟩
  rcases PopulateSymbolsOrDie_eq_some hpop with ⟨h0, _⟩ | ⟨_, syms, hsyms, _, rfl⟩
  · exact absurd h0 hne
  · rw [htable] at hsyms
    cases hsyms
    refine ⟨?_, ?_, ?_⟩
    · intro hep
      have hm :=
        (symbolLoop_has_main k filepath idx.exported_symbol_to_file symbol_table).2 hep
      simp only [hm, if_true]
      exact Map.getD_pushBack_same _ _ _
    · intro hep
      simp [hfalse hep]
    · intro hund
      have hep : ¬ HasEntryPoint k symbol_table := by
        rintro ⟨sym, hmem, hexp, hsub⟩
        have := hund sym hmem hsub
        simp [treatedAsExported, this] at hexp
      simp [hfalse hep]

/-- The object file `a.o` of scenario C, classified on the empty tables: it
exports `_main` and is appended to the entry-point list of its package. -/
theorem entry_point_iff_exported_marker_witness :
    ∃ idx', PopulateSymbolsOrDie binutilsFlags aObject.abfd aObject.package
        aObject.filepath Index.empty = some idx' ∧
      (HasEntryPoint binutilsFlags (symbolsRead aObject.abfd) →
        Map.getD idx'.package_to_main aObject.package =
          Map.getD Index.empty.package_to_main aObject.package ++ [aObject.filepath]) ∧
      (¬ HasEntryPoint binutilsFlags (symbolsRead aObject.abfd) →
        idx'.package_to_main = Index.empty.package_to_main) ∧
      ((∀ sym ∈ symbolsRead aObject.abfd,
          (∃ before after : Str, sym.name = before ++ kMainSymName ++ after) →
            is_undefined sym = true) →
        idx'.package_to_main = Index.empty.package_to_main) :=
  entry_point_iff_exported_marker binutilsFlags aObject.abfd aObject.package
    aObject.filepath Index.empty (symbolsRead aObject.abfd) (by decide) (by decide) rfl

/-! ## The traversal: effect on the undefined-symbol table -/

theorem Map.subscript_snd (m : Map (List Str)) (k : Str) :
    (m.subscript k).2 = Map.getD m k := by
  unfold Map.subscript Map.getD
  cases h : Map.get? m k <;> simp

theorem Map.Extends.refl (m : Map (List Str)) : Map.Extends m m :=
  fun _ => Or.inl rfl

theorem Map.Extends.trans {m1 m2 m3 : Map (List Str)} (h12 : Map.Extends m1 m2)
    (h23 : Map.Extends m2 m3) : Map.Extends m1 m3 := by
  intro k
  rcases h23 k with h | ⟨h, h'⟩
  · rcases h12 k with g | ⟨g, g'⟩
    · exact Or.inl (h.trans g)
    · exact Or.inr ⟨g, h.trans g'⟩
  · rcases h12 k with g | ⟨g, g'⟩
    · exact Or.inr ⟨g ▸ h, h'⟩
    · rw [g'] at h
      cases h

theorem Map.Extends.getD {m1 m2 : Map (List Str)} (h : Map.Extends m1 m2) (k : Str) :
    Map.getD m2 k = Map.getD m1 k := by
  unfold Map.getD
  rcases h k with h | ⟨h, h'⟩
  · rw [h]
  · rw [h, h']
    rfl

theorem Map.subscript_extends (m : Map (List Str)) (k : Str) :
    Map.Extends m (m.subscript k).1 := by
  intro k'
  unfold Map.subscript
  cases h : Map.get? m k with
  | some v => exact Or.inl rfl
  | none =>
    simp only [Map.get?_append]
    cases h' : Map.get? m k' with
    | some v => left; simp
    | none =>
      by_cases hk : k = k'
      · right; simp [Map.get?, hk]
      · left; simp [Map.get?, hk]

theorem symStep_none {exported : Map Str} {sym : Str} (st : Traversal)
    (h : Map.get? exported sym = none) : symStep exported st sym = st := by
  simp [symStep, h]

theorem symStep_some {exported : Map Str} {sym d : Str} (st : Traversal)
    (h : Map.get? exported sym = some d) :
    symStep exported st sym =
      { file_to_undefined_symbols := (st.file_to_undefined_symbols.subscript d).1
        depfiles := setEmplace st.depfiles d
        file_work_queue :=
          if Map.getD st.file_to_undefined_symbols d = [] then st.file_work_queue
          else st.file_work_queue ++ [d]
        command_buffer_size := st.command_buffer_size + d.length + 1 } := by
  simp only [symStep, h, Map.subscript_snd]
  by_cases he : Map.getD st.file_to_undefined_symbols d = []
  · simp [he]
  · simp [he]

theorem symStep_extends (exported : Map Str) (st : Traversal) (sym : Str) :
    Map.Extends st.file_to_undefined_symbols
      (symStep exported st sym).file_to_undefined_symbols := by
  cases h : Map.get? exported sym with
  | none => rw [symStep_none st h]; exact Map.Extends.refl _
  | some d => rw [symStep_some st h]; exact Map.subscript_extends _ _

theorem foldl_symStep_extends (exported : Map Str) (syms : List Str) (st : Traversal) :
    Map.Extends st.file_to_undefined_symbols
      (syms.foldl (symStep exported) st).file_to_undefined_symbols := by
  induction syms generalizing st with
  | nil => exact Map.Extends.refl _
  | cons s syms ih =>
    exact (symStep_extends exported st s).trans (ih (symStep exported st s))

theorem whileStep_extends (exported : Map Str) (st : Traversal) (file : Str)
    (rest : List Str) :
    Map.Extends st.file_to_undefined_symbols
      (whileStep exported st file rest).file_to_undefined_symbols := by
  unfold whileStep
  exact (Map.subscript_extends _ file).trans (foldl_symStep_extends exported _ _)

theorem whileLoop_extends (exported : Map Str) (fuel : Nat) (st st' : Traversal)
    (h : whileLoop exported fuel st = some st') :
    Map.Extends st.file_to_undefined_symbols st'.file_to_undefined_symbols := by
  induction fuel generalizing st with
  | zero =>
    unfold whileLoop at h
    cases hq : st.file_work_queue with
    | nil =>
      simp only [hq, Option.some.injEq] at h
      subst h
      exact Map.Extends.refl _
    | cons file rest => simp [hq] at h
  | succ fuel ih =>
    unfold whileLoop at h
    cases hq : st.file_work_queue with
    | nil =>
      simp only [hq, Option.some.injEq] at h
      subst h
      exact Map.Extends.refl _
    | cons file rest =>
      simp only [hq] at h
      exact (whileStep_extends exported st file rest).trans (ih _ h)

theorem linkMain_extends {iter : List Str → List Str} {exported : Map Str} {fuel : Nat}
    {undefined : Map (List Str)} {mf : Str} {step : LinkStep}
    (h : linkMain iter exported fuel undefined mf = some step) :
    Map.Extends undefined step.file_to_undefined_symbols := by
  unfold linkMain at h
  cases hw : whileLoop exported fuel (traversalInit undefined mf) with
  | none => simp [hw] at h
  | some st =>
    simp only [hw, Option.some.injEq] at h
    subst h
    exact whileLoop_extends exported fuel _ st hw

theorem linkLoop_extends (system : Str → Bool) (iter : List Str → List Str)
    (exported : Map Str) (fuel : Nat) (mains : List Str) (undefined u : Map (List Str))
    (cs : List Str) (e : Bool)
    (h : linkLoop system iter exported fuel undefined mains = some (u, cs, e)) :
    Map.Extends undefined u := by
  induction mains generalizing undefined u cs e with
  | nil =>
    simp only [linkLoop, Option.some.injEq, Prod.mk.injEq] at h
    rw [← h.1]
    exact Map.Extends.refl _
  | cons mf rest ih =>
    unfold linkLoop at h
    cases hm : linkMain iter exported fuel undefined mf with
    | none => simp [hm] at h
    | some step =>
      simp only [hm] at h
      by_cases hs : step.commands.all system = true
      · simp only [hs, if_true] at h
        cases hl : linkLoop system iter exported fuel step.file_to_undefined_symbols rest with
        | none => simp [hl] at h
        | some r =>
          obtain ⟨u', cs', e'⟩ := r
          simp only [hl, Option.some.injEq, Prod.mk.injEq] at h
          rw [← h.1]
          exact (linkMain_extends hm).trans (ih _ _ _ _ hl)
      · simp only [hs, Bool.false_eq_true, if_false, Option.some.injEq, Prod.mk.injEq] at h
        rw [← h.1]
        exact linkMain_extends hm

/-- C9, the statement as written fails: in scenario A the link phase adds the
key `bar.o`, with an empty list, to the undefined-symbol table. -/
theorem LinkDeps_adds_keys :
    Map.get? scenarioA.file_to_undefined_symbols "/src/bar/bar.o".toList = none ∧
    (LinkDeps (fun _ => true) id 2 scenarioA "foo".toList).map
      (fun r => Map.get? r.index.file_to_undefined_symbols "/src/bar/bar.o".toList) =
        some (some []) := by
  decide

/-- C9, amended: after `LinkDeps` has run, the membership table and the definer
map are equal to what they were, and in the entry-point table and the
undefined-symbol table every key present before has the value it had, while a
key that was absent is still absent or maps to the empty list. -/
theorem LinkDeps_preserves_index (system : Str → Bool) (iter : List Str → List Str)
    (fuel : Nat) (idx : Index) (target : Str) (r : LinkResult)
    (h : LinkDeps system iter fuel idx target = some r) :
    r.index.package_to_file = idx.package_to_file ∧
    r.index.exported_symbol_to_file = idx.exported_symbol_to_file ∧
    Map.Extends idx.package_to_main r.index.package_to_main ∧
    Map.Extends idx.file_to_undefined_symbols r.index.file_to_undefined_symbols := by
  unfold LinkDeps at h
  by_cases hempty : (idx.package_to_main.subscript target).2.isEmpty = true
  · simp only [hempty, if_true, Option.some.injEq] at h
    subst h
    exact ⟨rfl, rfl, Map.subscript_extends _ _, Map.Extends.refl _⟩
  · simp only [hempty, Bool.false_eq_true, if_false] at h
    cases hl : linkLoop system iter idx.exported_symbol_to_file fuel
        idx.file_to_undefined_symbols (idx.package_to_main.subscript target).2 with
    | none => simp [hl] at h
    | some res =>
      obtain ⟨u, cs, e⟩ := res
      simp only [hl, Option.some.injEq] at h
      subst h
      exact ⟨rfl, rfl, Map.subscript_extends _ _, linkLoop_extends _ _ _ _ _ _ _ _ _ hl⟩

/-- Scenario A, linked for the package `foo`. -/
theorem LinkDeps_preserves_index_witness :
    scenarioALinked.index.package_to_file = scenarioA.package_to_file ∧
    scenarioALinked.index.exported_symbol_to_file = scenarioA.exported_symbol_to_file ∧
    Map.Extends scenarioA.package_to_main scenarioALinked.index.package_to_main ∧
    Map.Extends scenarioA.file_to_undefined_symbols
      scenarioALinked.index.file_to_undefined_symbols :=
  LinkDeps_preserves_index (fun _ => true) id 2 scenarioA "foo".toList scenarioALinked
    (by decide)

/-! ## The traversal on a cycle -/

theorem whileLoop_scenarioC (fuel : Nat) (st : Traversal)
    (hu : st.file_to_undefined_symbols = scenarioC.file_to_undefined_symbols)
    (hq : st.file_work_queue = ["a.o".toList] ∨ st.file_work_queue = ["b.o".toList]) :
    whileLoop scenarioC.exported_symbol_to_file fuel st = none := by
  induction fuel generalizing st with
  | zero =>
    unfold whileLoop
    rcases hq with hq | hq <;> rw [hq]
  | succ fuel ih =>
    obtain ⟨u, d, q, n⟩ := st
    simp only at hu hq
    subst hu
    unfold whileLoop
    rcases hq with hq | hq
    · subst hq
      exact ih _ rfl (Or.inr rfl)
    · subst hq
      exact ih _ rfl (Or.inl rfl)

/-- C1, scenario C: classifying `a.o` (exports `x`, undefined `y`) and `b.o`
(exports `y`, undefined `x`) gives the tables `scenarioC`, on which the
work-queue loop started from `a.o` runs out of any amount of fuel, so that
`LinkDeps` never returns for the package. -/
theorem LinkDeps_cycle_never_returns :
    classifyAll binutilsFlags Index.empty [aObject, bObject] = some scenarioC ∧
    (∀ fuel, whileLoop scenarioC.exported_symbol_to_file fuel
      (traversalInit scenarioC.file_to_undefined_symbols "a.o".toList) = none) ∧
    ∀ (system : Str → Bool) (iter : List Str → List Str) (fuel : Nat),
      LinkDeps system iter fuel scenarioC "app".toList = none := by
  have hloop : ∀ fuel, whileLoop scenarioC.exported_symbol_to_file fuel
      (traversalInit scenarioC.file_to_undefined_symbols "a.o".toList) = none :=
    fun fuel => whileLoop_scenarioC fuel _ rfl (Or.inl rfl)
  refine ⟨by decide, hloop, ?_⟩
  intro system iter fuel
  have hsub : scenarioC.package_to_main.subscript "app".toList =
      (scenarioC.package_to_main, ["a.o".toList]) := by decide
  have hmain : linkMain iter scenarioC.exported_symbol_to_file fuel
      scenarioC.file_to_undefined_symbols "a.o".toList = none := by
    simp only [linkMain, hloop fuel]
  unfold LinkDeps
  simp only [hsub, List.isEmpty_cons, Bool.false_eq_true, if_false, linkLoop, hmain]

/-! ## The traversal: what one iteration adds -/

theorem mem_setEmplace (s : List Str) (x g : Str) :
    g ∈ setEmplace s x ↔ g ∈ s ∨ g = x := by
  unfold setEmplace
  by_cases h : x ∈ s
  · simp only [h, if_true]
    constructor
    · exact Or.inl
    · rintro (hg | hg)
      · exact hg
      · exact hg ▸ h
  · simp [h]

theorem nodup_setEmplace {s : List Str} (x : Str) (h : s.Nodup) : (setEmplace s x).Nodup := by
  unfold setEmplace
  by_cases hx : x ∈ s
  · simpa [hx] using h
  · simp only [hx, if_false]
    rw [List.nodup_append]
    refine ⟨h, List.nodup_singleton x, ?_⟩
    intro a ha hb
    rw [List.mem_singleton] at hb
    exact hx (hb ▸ ha)

theorem foldl_symStep_depfiles (exported : Map Str) (syms : List Str) (st : Traversal)
    (g : Str) :
    g ∈ (syms.foldl (symStep exported) st).depfiles ↔
      g ∈ st.depfiles ∨ ∃ sym ∈ syms, Map.get? exported sym = some g := by
  induction syms generalizing st with
  | nil => simp
  | cons s syms ih =>
    simp only [List.foldl_cons, ih, List.mem_cons, exists_eq_or_imp]
    cases h : Map.get? exported s with
    | none => simp [symStep_none st h]
    | some d =>
      rw [symStep_some st h]
      simp only [mem_setEmplace, Option.some.injEq]
      constructor
      · rintro ((hg | hg) | hg)
        · exact Or.inl hg
        · exact Or.inr (Or.inl hg.symm)
        · exact Or.inr (Or.inr hg)
      · rintro (hg | hg | hg)
        · exact Or.inl (Or.inl hg)
        · exact Or.inl (Or.inr hg.symm)
        · exact Or.inr hg

theorem foldl_symStep_nodup (exported : Map Str) (syms : List Str) (st : Traversal)
    (h : st.depfiles.Nodup) : (syms.foldl (symStep exported) st).depfiles.Nodup := by
  induction syms generalizing st with
  | nil => exact h
  | cons s syms ih =>
    apply ih
    cases hs : Map.get? exported s with
    | none => rw [symStep_none st hs]; exact h
    | some d => rw [symStep_some st hs]; exact nodup_setEmplace d h

theorem foldl_symStep_queue (exported : Map Str) (syms : List Str) (st : Traversal) :
    ∃ extra, (syms.foldl (symStep exported) st).file_work_queue =
        st.file_work_queue ++ extra ∧
      (∀ c ∈ extra, ∃ sym ∈ syms, Map.get? exported sym = some c) ∧
      (∀ sym ∈ syms, ∀ g, Map.get? exported sym = some g →
        g ∈ extra ∨ Map.getD st.file_to_undefined_symbols g = []) := by
  induction syms generalizing st with
  | nil => exact ⟨[], by simp, by simp, by simp⟩
  | cons s syms ih =>
    obtain ⟨extra, hq, hsub, hall⟩ := ih (symStep exported st s)
    have htab := (symStep_extends exported st s).getD
    simp only [List.foldl_cons]
    cases hs : Map.get? exported s with
    | none =>
      rw [symStep_none st hs] at hq hall ⊢
      refine ⟨extra, hq, ?_, ?_⟩
      · intro c hc
        obtain ⟨sym, hsym, hget⟩ := hsub c hc
        exact ⟨sym, List.mem_cons_of_mem _ hsym, hget⟩
      · intro sym hsym g hget
        rcases List.mem_cons.1 hsym with rfl | hsym
        · rw [hs] at hget
          cases hget
        · exact hall sym hsym g hget
    | some d =>
      by_cases he : Map.getD st.file_to_undefined_symbols d = []
      · have hqueue : (symStep exported st s).file_work_queue = st.file_work_queue := by
          rw [symStep_some st hs]
          simp [he]
        rw [hqueue] at hq
        refine ⟨extra, hq, ?_, ?_⟩
        · intro c hc
          obtain ⟨sym, hsym, hget⟩ := hsub c hc
          exact ⟨sym, List.mem_cons_of_mem _ hsym, hget⟩
        · intro sym hsym g hget
          rcases List.mem_cons.1 hsym with rfl | hsym
          · rw [hs] at hget
            cases hget
            exact Or.inr he
          · rcases hall sym hsym g hget with hg | hg
            · exact Or.inl hg
            · exact Or.inr (by rw [← htab g]; exact hg)
      · have hqueue : (symStep exported st s).file_work_queue =
            st.file_work_queue ++ [d] := by
          rw [symStep_some st hs]
          simp [he]
        rw [hqueue] at hq
        refine ⟨d :: extra, by simpa using hq, ?_, ?_⟩
        · intro c hc
          rcases List.mem_cons.1 hc with rfl | hc
          · exact ⟨s, List.mem_cons_self _ _, hs⟩
          · obtain ⟨sym, hsym, hget⟩ := hsub c hc
            exact ⟨sym, List.mem_cons_of_mem _ hsym, hget⟩
        · intro sym hsym g hget
          rcases List.mem_cons.1 hsym with rfl | hsym
          · rw [hs] at hget
            cases hget
            exact Or.inl (List.mem_cons_self _ _)
          · rcases hall sym hsym g hget with hg | hg
            · exact Or.inl (List.mem_cons_of_mem _ hg)
            · exact Or.inr (by rw [← htab g]; exact hg)

theorem DependsOn_congr {m m' : Map (List Str)} (h : ∀ k, Map.getD m k = Map.getD m' k)
    (exported : Map Str) (f g : Str) : DependsOn m exported f g ↔ DependsOn m' exported f g := by
  unfold DependsOn
  rw [h f]

theorem whileStep_depfiles (exported : Map Str) (st : Traversal) (file : Str)
    (rest : List Str) (g : Str) :
    g ∈ (whileStep exported st file rest).depfiles ↔
      g ∈ st.depfiles ∨ DependsOn st.file_to_undefined_symbols exported file g := by
  unfold whileStep
  rw [foldl_symStep_depfiles, Map.subscript_snd]
  rfl

theorem whileStep_nodup (exported : Map Str) (st : Traversal) (file : Str)
    (rest : List Str) (h : st.depfiles.Nodup) :
    (whileStep exported st file rest).depfiles.Nodup := by
  unfold whileStep
  exact foldl_symStep_nodup _ _ _ h

theorem whileStep_queue (exported : Map Str) (st : Traversal) (file : Str)
    (rest : List Str) :
    ∃ extra, (whileStep exported st file rest).file_work_queue = rest ++ extra ∧
      (∀ c ∈ extra, DependsOn st.file_to_undefined_symbols exported file c) ∧
      (∀ g, DependsOn st.file_to_undefined_symbols exported file g →
        g ∈ extra ∨ Map.getD st.file_to_undefined_symbols g = []) := by
  unfold whileStep
  obtain ⟨extra, hq, hsub, hall⟩ := foldl_symStep_queue exported
    (st.file_to_undefined_symbols.subscript file).2
    { st with
      file_to_undefined_symbols := (st.file_to_undefined_symbols.subscript file).1
      file_work_queue := rest }
  rw [Map.subscript_snd] at hq hsub hall
  refine ⟨extra, by simpa only [Map.subscript_snd] using hq, hsub, ?_⟩
  rintro g ⟨sym, hsym, hget⟩
  rcases hall sym hsym g hget with hg | hg
  · exact Or.inl hg
  · right
    rw [← (Map.subscript_extends st.file_to_undefined_symbols file).getD g]
    exact hg

/-! ## The traversal: invariant and result -/

theorem traversalInit_inv (U : Map (List Str)) (exported : Map Str) (mf : Str) :
    TraversalInv U exported mf (traversalInit U mf) where
  table := fun _ => rfl
  sound := by
    intro g hg
    simp [traversalInit] at hg
  queued := by
    intro q hq
    simp only [traversalInit, List.mem_singleton] at hq
    rw [hq]
  closed := by
    intro f hf
    left
    rcases hf with hf | hf
    · simp [traversalInit, hf]
    · simp [traversalInit] at hf
  nodup := List.nodup_nil

theorem whileStep_inv {U : Map (List Str)} {exported : Map Str} {mf : Str} {st : Traversal}
    {file : Str} {rest : List Str} (inv : TraversalInv U exported mf st)
    (hq : st.file_work_queue = file :: rest) :
    TraversalInv U exported mf (whileStep exported st file rest) := by
  have hdep : ∀ g, DependsOn st.file_to_undefined_symbols exported file g ↔
      DependsOn U exported file g := DependsOn_congr inv.table exported file
  have hfile : Relation.ReflTransGen (DependsOn U exported) mf file :=
    inv.queued file (by rw [hq]; exact List.mem_cons_self _ _)
  obtain ⟨extra, hqueue, hextra, hall⟩ := whileStep_queue exported st file rest
  refine ⟨?_, ?_, ?_, ?_, whileStep_nodup exported st file rest inv.nodup⟩
  · intro k
    rw [(whileStep_extends exported st file rest).getD k]
    exact inv.table k
  · intro g hg
    rcases (whileStep_depfiles exported st file rest g).1 hg with hg | hg
    · exact inv.sound g hg
    · exact Relation.TransGen.tail' hfile ((hdep g).1 hg)
  · intro q hmem
    rw [hqueue] at hmem
    rcases List.mem_append.1 hmem with hmem | hmem
    · exact inv.queued q (by rw [hq]; exact List.mem_cons_of_mem _ hmem)
    · exact hfile.tail ((hdep q).1 (hextra q hmem))
  · intro f hf
    have hold : f = mf ∨ f ∈ st.depfiles → f ∈ (whileStep exported st file rest).file_work_queue ∨
        ∀ g, DependsOn U exported f g → g ∈ (whileStep exported st file rest).depfiles := by
      intro hf
      rcases inv.closed f hf with hin | hout
      · rw [hq] at hin
        rcases List.mem_cons.1 hin with rfl | hin
        · right
          intro g hg
          exact (whileStep_depfiles exported st f rest g).2 (Or.inr ((hdep g).2 hg))
        · left
          rw [hqueue]
          exact List.mem_append_left _ hin
      · right
        intro g hg
        exact (whileStep_depfiles exported st file rest g).2 (Or.inl (hout g hg))
    rcases hf with hf | hf
    · exact hold (Or.inl hf)
    · rcases (whileStep_depfiles exported st file rest f).1 hf with hf | hf
      · exact hold (Or.inr hf)
      · rcases hall f hf with hin | hnone
        · left
          rw [hqueue]
          exact List.mem_append_right _ hin
        · right
          rintro g ⟨sym, hsym, _⟩
          rw [← inv.table f, hnone] at hsym
          cases hsym

theorem whileLoop_inv {U : Map (List Str)} {exported : Map Str} {mf : Str} (fuel : Nat)
    (st st' : Traversal) (inv : TraversalInv U exported mf st)
    (h : whileLoop exported fuel st = some st') :
    TraversalInv U exported mf st' ∧ st'.file_work_queue = [] := by
  induction fuel generalizing st with
  | zero =>
    unfold whileLoop at h
    cases hq : st.file_work_queue with
    | nil =>
      simp only [hq, Option.some.injEq] at h
      subst h
      exact ⟨inv, hq⟩
    | cons file rest => simp [hq] at h
  | succ fuel ih =>
    unfold whileLoop at h
    cases hq : st.file_work_queue with
    | nil =>
      simp only [hq, Option.some.injEq] at h
      subst h
      exact ⟨inv, hq⟩
    | cons file rest =>
      simp only [hq] at h
      exact ih _ (whileStep_inv inv hq) h

theorem inv_depfiles_iff {U : Map (List Str)} {exported : Map Str} {mf : Str} {st : Traversal}
    (inv : TraversalInv U exported mf st) (hq : st.file_work_queue = []) (g : Str) :
    g ∈ st.depfiles ↔ Relation.TransGen (DependsOn U exported) mf g := by
  have hclosed : ∀ f, f = mf ∨ f ∈ st.depfiles →
      ∀ g, DependsOn U exported f g → g ∈ st.depfiles := by
    intro f hf
    rcases inv.closed f hf with hin | hout
    · rw [hq] at hin
      cases hin
    · exact hout
  constructor
  · exact inv.sound g
  · intro hreach
    induction hreach with
    | single hstep => exact hclosed mf (Or.inl rfl) _ hstep
    | tail _ hstep ih => exact hclosed _ (Or.inr ih) _ hstep

/-- C2: when the traversal of `LinkDeps` started from the entry point `mf`
finishes, `depfiles` holds, each once, exactly the files reachable from `mf`
in one or more steps of the relation "has an undefined symbol whose entry in
the definer map is"; an undefined symbol without an entry in the definer map
gives no step of the relation and so adds no file. -/
theorem depfiles_eq_reachable (undefined : Map (List Str)) (exported : Map Str) (mf : Str)
    (fuel : Nat) (st : Traversal)
    (h : whileLoop exported fuel (traversalInit undefined mf) = some st) :
    (∀ g, g ∈ st.depfiles ↔ Relation.TransGen (DependsOn undefined exported) mf g) ∧
    st.depfiles.Nodup ∧
    ((∀ sym ∈ Map.getD undefined mf, Map.get? exported sym = none) → st.depfiles = []) := by
  obtain ⟨inv, hq⟩ := whileLoop_inv fuel _ st (traversalInit_inv undefined exported mf) h
  refine ⟨inv_depfiles_iff inv hq, inv.nodup, ?_⟩
  intro hnone
  rw [List.eq_nil_iff_forall_not_mem]
  intro g hg
  obtain ⟨b, ⟨sym, hsym, hget⟩, _⟩ := Relation.TransGen.head'_iff.1 (inv.sound g hg)
  rw [hnone sym hsym] at hget
  cases hget

/-- Scenario A: the traversal from `main.o` finishes with `depfiles` holding
`bar.o` alone. -/
theorem depfiles_eq_reachable_witness :
    (∀ g, g ∈ scenarioATraversal.depfiles ↔
      Relation.TransGen
        (DependsOn scenarioA.file_to_undefined_symbols scenarioA.exported_symbol_to_file)
        "/src/foo/main.o".toList g) ∧
    scenarioATraversal.depfiles.Nodup ∧
    ((∀ sym ∈ Map.getD scenarioA.file_to_undefined_symbols "/src/foo/main.o".toList,
        Map.get? scenarioA.exported_symbol_to_file sym = none) →
      scenarioATraversal.depfiles = []) :=
  depfiles_eq_reachable scenarioA.file_to_undefined_symbols scenarioA.exported_symbol_to_file
    "/src/foo/main.o".toList 2 scenarioATraversal (by decide)

/-! ## Termination of the traversal -/

theorem Map.get?_mem {V : Type} (m : Map V) (k : Str) (v : V) (h : Map.get? m k = some v) :
    (k, v) ∈ m := by
  induction m with
  | nil => simp [Map.get?] at h
  | cons p m ih =>
    obtain ⟨k', v'⟩ := p
    by_cases hk : k' = k
    · simp only [Map.get?, hk, if_true, Option.some.injEq] at h
      simp [hk, h]
    · simp only [Map.get?, hk, if_false] at h
      exact List.mem_cons_of_mem _ (ih h)

theorem DependsOn.mem_definers {U : Map (List Str)} {exported : Map Str} {f g : Str}
    (h : DependsOn U exported f g) : g ∈ exported.map Prod.snd := by
  obtain ⟨sym, _, hget⟩ := h
  exact List.mem_map.2 ⟨(sym, g), Map.get?_mem _ _ _ hget, rfl⟩

theorem ChildOf.transGen_dependsOn {U : Map (List Str)} {exported : Map Str} {mf a b : Str}
    (h : Relation.TransGen (ChildOf U exported mf) a b) :
    Relation.TransGen (DependsOn U exported) b a := by
  induction h with
  | single hab => exact Relation.TransGen.single hab.2
  | tail _ hbc ih => exact Relation.TransGen.head hbc.2 ih

/-- On a finite definer map, the child relation of a traversal that meets no
cycle is well founded. -/
theorem childOf_wellFounded (U : Map (List Str)) (exported : Map Str) (mf : Str)
    (hacyclic : ∀ f, Relation.TransGen (DependsOn U exported) mf f →
      ¬ Relation.TransGen (DependsOn U exported) f f) :
    WellFounded (ChildOf U exported mf) := by
  classical
  let below : Str → Finset Str := fun f =>
    (exported.map Prod.snd).toFinset.filter
      fun y => Relation.TransGen (ChildOf U exported mf) y f
  have hlt : ∀ g f, ChildOf U exported mf g f → (below g).card < (below f).card := by
    intro g f hgf
    apply Finset.card_lt_card
    have hsub : below g ⊆ below f := by
      intro y hy
      simp only [below, Finset.mem_filter] at hy ⊢
      exact ⟨hy.1, hy.2.tail hgf⟩
    rw [Finset.ssubset_iff_of_subset hsub]
    refine ⟨g, ?_, ?_⟩
    · simp only [below, Finset.mem_filter, List.mem_toFinset]
      exact ⟨hgf.2.mem_definers, Relation.TransGen.single hgf⟩
    · intro hg
      simp only [below, Finset.mem_filter] at hg
      exact hacyclic g (Relation.TransGen.tail' hgf.1 hgf.2)
        (ChildOf.transGen_dependsOn hg.2)
  exact Subrelation.wf (fun {g f} h => hlt g f h)
    (InvImage.wf (fun f => (below f).card) Nat.lt_wfRel.wf)

theorem whileLoop_terminates_of_wellFounded (U : Map (List Str)) (exported : Map Str)
    (mf : Str) (hwf : WellFounded (ChildOf U exported mf)) (q : Multiset Str) :
    ∀ st : Traversal, (st.file_work_queue : Multiset Str) = q →
      (∀ k, Map.getD st.file_to_undefined_symbols k = Map.getD U k) →
      (∀ x ∈ st.file_work_queue, Relation.ReflTransGen (DependsOn U exported) mf x) →
      ∃ fuel st', whileLoop exported fuel st = some st' := by
  induction q using hwf.cutExpand.induction with
  | _ q ih =>
    intro st hq htable hreach
    cases hqueue : st.file_work_queue with
    | nil =>
      refine ⟨0, st, ?_⟩
      unfold whileLoop
      rw [hqueue]
    | cons file rest =>
      obtain ⟨extra, hq1, hextra, _⟩ := whileStep_queue exported st file rest
      have hfile : Relation.ReflTransGen (DependsOn U exported) mf file :=
        hreach file (by rw [hqueue]; exact List.mem_cons_self _ _)
      have hchild : ∀ c ∈ extra, ChildOf U exported mf c file := fun c hc =>
        ⟨hfile, (DependsOn_congr htable exported file c).1 (hextra c hc)⟩
      have hcut : Relation.CutExpand (ChildOf U exported mf)
          ((whileStep exported st file rest).file_work_queue : Multiset Str) q := by
        refine ⟨(extra : Multiset Str), file, ?_, ?_⟩
        · intro c hc
          exact hchild c (Multiset.mem_coe.1 hc)
        · rw [← hq, hqueue, hq1, ← Multiset.coe_singleton, Multiset.coe_add,
            Multiset.coe_add, Multiset.coe_eq_coe]
          exact List.perm_append_singleton _ _
      obtain ⟨fuel, st', hrun⟩ := ih _ hcut (whileStep exported st file rest) rfl
        (fun k => by
          rw [(whileStep_extends exported st file rest).getD k]
          exact htable k)
        (fun x hx => by
          rw [hq1] at hx
          rcases List.mem_append.1 hx with hx | hx
          · exact hreach x (by rw [hqueue]; exact List.mem_cons_of_mem _ hx)
          · exact hfile.tail (hchild x hx).2)
      refine ⟨fuel + 1, st', ?_⟩
      unfold whileLoop
      simp only [hqueue]
      exact hrun

/-- C10: when no file reachable from the entry point `mf` can reach itself,
the work-queue loop of `LinkDeps` started from `mf` terminates: some amount of
fuel lets it leave the loop. -/
theorem acyclic_traversal_terminates (undefined : Map (List Str)) (exported : Map Str)
    (mf : Str)
    (hacyclic : ∀ f, Relation.TransGen (DependsOn undefined exported) mf f →
      ¬ Relation.TransGen (DependsOn undefined exported) f f) :
    ∃ fuel st, whileLoop exported fuel (traversalInit undefined mf) = some st := by
  apply whileLoop_terminates_of_wellFounded undefined exported mf
    (childOf_wellFounded undefined exported mf hacyclic) _ (traversalInit undefined mf) rfl
    (fun _ => rfl)
  intro x hx
  simp only [traversalInit, List.mem_singleton] at hx
  rw [hx]

theorem Map.mem_getD (m : Map (List Str)) (k x : Str) (h : x ∈ Map.getD m k) :
    ∃ v, (k, v) ∈ m ∧ x ∈ v := by
  unfold Map.getD at h
  cases hg : Map.get? m k with
  | none => simp [hg] at h
  | some v =>
    rw [hg] at h
    exact ⟨v, Map.get?_mem m k v hg, h⟩

theorem diamond_rank (f g : Str)
    (h : DependsOn diamond.file_to_undefined_symbols diamond.exported_symbol_to_file f g) :
    diamondRank g < diamondRank f := by
  obtain ⟨sym, hsym, hget⟩ := h
  obtain ⟨v, hv, hmem⟩ := Map.mem_getD _ _ _ hsym
  have hg := Map.get?_mem _ _ _ hget
  simp only [diamond, List.mem_cons, Prod.mk.injEq, List.mem_singleton, List.not_mem_nil,
    or_false] at hv hg
  rcases hv with ⟨rfl, rfl⟩ | ⟨rfl, rfl⟩ | ⟨rfl, rfl⟩ | ⟨rfl, rfl⟩ <;>
    rcases hg with ⟨rfl, rfl⟩ | ⟨rfl, rfl⟩ | ⟨rfl, rfl⟩ | ⟨rfl, rfl⟩ <;>
    first
    | decide
    | exact absurd hmem (by decide)

theorem acyclic_of_rank {U : Map (List Str)} {exported : Map Str} (rank : Str → Nat)
    (h : ∀ f g, DependsOn U exported f g → rank g < rank f) (f : Str) :
    ¬ Relation.TransGen (DependsOn U exported) f f := by
  have hlt : ∀ a b, Relation.TransGen (DependsOn U exported) a b → rank b < rank a := by
    intro a b hab
    induction hab with
    | single hstep => exact h _ _ hstep
    | tail _ hstep ih => exact lt_trans (h _ _ hstep) ih
  intro hff
  exact lt_irrefl _ (hlt f f hff)

/-- The diamond: `shared.o` is queued once for `left.o` and once for `right.o`,
and the loop still terminates. -/
theorem acyclic_traversal_terminates_witness :
    ∃ fuel st, whileLoop diamond.exported_symbol_to_file fuel
      (traversalInit diamond.file_to_undefined_symbols "top.o".toList) = some st :=
  acyclic_traversal_terminates diamond.file_to_undefined_symbols
    diamond.exported_symbol_to_file "top.o".toList
    (fun f _ => acyclic_of_rank diamondRank diamond_rank f)

/-! ## The link command -/

theorem foldl_append_dep (deps : List Str) (command : Str) :
    deps.foldl (fun command depfile => command ++ " ".toList ++ depfile) command =
      command ++ (deps.map fun depfile => " ".toList ++ depfile).flatten := by
  induction deps generalizing command with
  | nil => simp
  | cons d deps ih =>
    rw [List.foldl_cons, ih]
    simp

/-- C5: when the traversal from the entry point `mf` finishes, the body of the
loop over the entry points passes exactly one command to `RunOrDie`: the text
`c++ -o `, the binary name derived from `mf`, a space, `mf`, and then, each
preceded by one space, the files of `depfiles` in the iteration order of the
set, which lists every file of `depfiles` once and nothing else. -/
theorem link_command_shape (iter : List Str → List Str) (undefined : Map (List Str))
    (exported : Map Str) (mf : Str) (fuel : Nat) (st : Traversal)
    (hiter : ∀ l, (iter l).Perm l)
    (h : whileLoop exported fuel (traversalInit undefined mf) = some st) :
    ∃ (step : LinkStep) (deps : List Str),
      linkMain iter exported fuel undefined mf = some step ∧
      deps.Perm st.depfiles ∧ deps.Nodup ∧
      step.commands = ["c++ -o ".toList ++ GenerateExpectedBinaryFileName mf ++ " ".toList ++
        mf ++ (deps.map fun depfile => " ".toList ++ depfile).flatten] := by
  obtain ⟨inv, _⟩ := whileLoop_inv fuel _ st (traversalInit_inv undefined exported mf) h
  refine ⟨⟨st.file_to_undefined_symbols, st.depfiles,
    [linkCommand (GenerateExpectedBinaryFileName mf) mf (iter st.depfiles)]⟩,
    iter st.depfiles, by simp only [linkMain, h], hiter _,
    (hiter _).nodup_iff.2 inv.nodup, ?_⟩
  simp only [linkCommand, foldl_append_dep]

/-- Scenario A: the dependency set of `main.o` is `bar.o` alone, and `LinkDeps`
runs one command, which names `main.o` and `bar.o`. -/
theorem LinkDeps_scenarioA :
    classifyAll binutilsFlags Index.empty [mainObject, barObject] = some scenarioA ∧
    LinkDeps (fun _ => true) id 2 scenarioA "foo".toList = some scenarioALinked := by
  decide

/-- Scenario A, the entry point `main.o`. -/
theorem link_command_shape_witness :
    ∃ (step : LinkStep) (deps : List Str),
      linkMain id scenarioA.exported_symbol_to_file 2
        scenarioA.file_to_undefined_symbols "/src/foo/main.o".toList = some step ∧
      deps.Perm scenarioATraversal.depfiles ∧ deps.Nodup ∧
      step.commands = ["c++ -o ".toList ++
        GenerateExpectedBinaryFileName "/src/foo/main.o".toList ++ " ".toList ++
        "/src/foo/main.o".toList ++ (deps.map fun depfile => " ".toList ++ depfile).flatten] :=
  link_command_shape id scenarioA.file_to_undefined_symbols scenarioA.exported_symbol_to_file
    "/src/foo/main.o".toList 2 scenarioATraversal (fun l => List.Perm.refl l) (by decide)

end CppBuild
